import Mathlib

/-!
Verification of hphp/runtime/vm/jit/region_selection.cpp against its
specification.

The development shallowly embeds the region-selection translation unit:

-- the RegionDesc::Block data model with its three metadata maps
   (type predictions, by-reference flags, reffiness predictions),
-- RegionDesc::Block::checkInvariants, the debug-build invariant checker,
-- the mutating Block operations addPredicted, setParamByRef and
   addReffinessPred, each of which reruns the checker,
-- createRegion, the Tracelet-to-RegionDesc builder,
-- regionMode and selectRegion, the strategy dispatcher,
-- the diagnostic rendering of ParamByRef.

Modelling conventions.  Source positions (SrcKey) are byte offsets (Nat);
the owning code unit is a function from offsets to decode information.
Machine integers are Nat/Int, with an explicit modulus 2^32 where the source
casts to uint32_t.  A C++ assertion failure or abort in a debug build is
modelled by an operation returning none; the embedded operations reproduce
the debug build, in which every contract check is live.  Exceptions thrown
by the external strategy collaborators of selectRegion are modelled as
Except values.  External collaborators that the translation unit only
declares (the bytecode decode tables, the type lattice, the tracer types)
are modelled at their boundary: only the facts the source consults appear
as fields.
-/

namespace HPHP

/-- Decode information the code unit provides at one byte offset: the byte
length of the instruction starting there, and the two instruction-table
flags the block invariant checker consults, namely instrFlags(op) having TF
set and instrIsNonCallControlFlow(op). -/
structure InstrInfo where
  len : Nat
  isTF : Bool
  isCF : Bool

/-- A code unit assigns decode information to every byte offset.  Models the
read-only Unit accessed via unit()->at and SrcKey::advance. -/
abbrev CodeUnit := Nat → InstrInfo

/-- Advancing a source key past the instruction at offset k, as done by
SrcKey::advance and SrcKey::advanced: add the byte length of that
instruction. -/
def stepKey (u : CodeUnit) (k : Nat) : Nat := k + (u k).len

/-- Owning function metadata; the checker consults only m_func->numLocals().
-/
structure Func where
  numLocals : Nat
deriving DecidableEq

/-- RegionDesc::Location, a tagged union: a numbered local variable slot or
a stack slot at a uint32 offset. -/
inductive RLocation where
  | Local (id : Nat)
  | Stack (offset : Nat)
deriving DecidableEq

/-- A value of the external type lattice.  Opaque except for the one fact
addPredicted asserts about it: whether it is a subtype of the union of
Type::Gen and Type::Cls. -/
structure Ty where
  code : Nat
  genOrCls : Bool
deriving DecidableEq

/-- RegionDesc::TypePred: a location paired with the type asserted there. -/
structure TypePred where
  location : RLocation
  type : Ty
deriving DecidableEq

/-- RegionDesc::ParamByRef.  Yes records an argument prepped by reference,
No an argument prepped by value. -/
inductive ParamByRef where
  | Yes
  | No
deriving DecidableEq

/-- RegionDesc::ReffinessPred: mask bits, value bits and the stack offset of
the pending activation record. -/
structure ReffinessPred where
  mask : List Bool
  vals : List Bool
  arSpOffset : Int
deriving DecidableEq

/-- RegionDesc::Block: owning function, start offset, instruction count and
the three metadata maps.  The maps are modelled as insertion-ordered
association lists from source-key offsets to entries; m_typePreds and
m_refPreds admit several entries per key, m_byRefs at most one (enforced by
setParamByRef). -/
structure Block where
  func : Func
  start : Nat
  len : Nat
  typePreds : List (Nat × TypePred)
  byRefs : List (Nat × ParamByRef)
  refPreds : List (Nat × ReffinessPred)
deriving DecidableEq

/-- RegionDesc: the ordered list of blocks. -/
structure RegionDesc where
  blocks : List Block
deriving DecidableEq

/-- The set keysInRange built by checkInvariants: starting from start(), the
loop repeatedly inserts lastKey().advanced(unit), so after the walk the set
holds the iterates of stepKey.  The list below records them with
multiplicity; the assertion that the set size equals length() is the
Nodup condition on this list. -/
def blockKeys (u : CodeUnit) (b : Block) : List Nat :=
  (List.range b.len).map (fun i => (stepKey u)^[i] b.start)

/-- The mid-block structure checks of checkInvariants: at loop index i
(running from 1 to length-1, skipping i = length-1) the instruction at the
largest key so far, which is iterate i-1 of stepKey from start, must be
neither a non-fallthrough (TF) instruction nor non-call control flow. -/
def midChecksOK (u : CodeUnit) (start len : Nat) : Bool :=
  (List.range len).all (fun i =>
    if 1 ≤ i ∧ i + 1 < len then
      !(u ((stepKey u)^[i - 1] start)).isTF && !(u ((stepKey u)^[i - 1] start)).isCF
    else true)

/-- The per-location check applied to every type prediction: a Local id must
be a valid local of the owning function; a Stack offset is explicitly
unchecked. -/
def locOK (f : Func) : RLocation → Bool
  | .Local id => decide (id < f.numLocals)
  | .Stack _ => true

/-- RegionDesc::Block::checkInvariants.  Returns true when no assertion in
the checker fires.  The source returns immediately when not in a debug
build or when the block has length zero; otherwise it performs the
mid-block structure checks, asserts that the key set has exactly length()
elements, and range-checks every key of the three maps, additionally
bound-checking Local ids of type predictions. -/
def checkInvariantsB (debug : Bool) (u : CodeUnit) (b : Block) : Bool :=
  if !debug || b.len == 0 then true
  else
    midChecksOK u b.start b.len
    && decide (blockKeys u b).Nodup
    && b.typePreds.all (fun p => decide (p.1 ∈ blockKeys u b) && locOK b.func p.2.location)
    && b.byRefs.all (fun p => decide (p.1 ∈ blockKeys u b))
    && b.refPreds.all (fun p => decide (p.1 ∈ blockKeys u b))

/-- RegionDesc::Block::addInstruction: increment the length.  The source
performs no checking here. -/
def Block.addInstruction (b : Block) : Block := { b with len := b.len + 1 }

/-- RegionDesc::Block::addPredicted: assert the type lies in the Gen-or-Cls
domain, insert, and rerun checkInvariants.  none models a debug-build
assertion failure. -/
def Block.addPredicted (u : CodeUnit) (b : Block) (sk : Nat) (pred : TypePred) :
    Option Block :=
  if !pred.type.genOrCls then none
  else
    if checkInvariantsB true u { b with typePreds := b.typePreds ++ [(sk, pred)] }
    then some { b with typePreds := b.typePreds ++ [(sk, pred)] }
    else none

/-- RegionDesc::Block::setParamByRef: assert no flag exists yet for this
key, insert, and rerun checkInvariants. -/
def Block.setParamByRef (u : CodeUnit) (b : Block) (sk : Nat) (byRef : ParamByRef) :
    Option Block :=
  if b.byRefs.any (fun p => p.1 == sk) then none
  else
    if checkInvariantsB true u { b with byRefs := b.byRefs ++ [(sk, byRef)] }
    then some { b with byRefs := b.byRefs ++ [(sk, byRef)] }
    else none

/-- RegionDesc::Block::addReffinessPred: insert and rerun checkInvariants.
-/
def Block.addReffinessPred (u : CodeUnit) (b : Block) (sk : Nat) (pred : ReffinessPred) :
    Option Block :=
  if checkInvariantsB true u { b with refPreds := b.refPreds ++ [(sk, pred)] }
  then some { b with refPreds := b.refPreds ++ [(sk, pred)] }
  else none

/-- Bytecode operations as far as createRegion distinguishes them: OpJmp,
the family recognised by isFPassStar, and everything else. -/
inductive Op where
  | Jmp
  | FPassStar
  | Other (code : Nat)
deriving DecidableEq

/-- The external isFPassStar predicate of the translator. -/
def isFPassStar : Op → Bool
  | .FPassStar => true
  | _ => false

/-- A NormalizedInstruction as consumed by createRegion: its operation, the
noOp marker, the preppedByRef determination of the tracer, and the branch
displacement immediate imm[0].u_BA. -/
structure NI where
  op : Op
  noOp : Bool
  preppedByRef : Bool
  imm : Int
deriving DecidableEq

/-- The location spaces of the tracer (Transl::Location::Space) that the
dependency loop distinguishes: Stack and Local are translated, This is
filtered out beforehand, anything else reaches not_reached(). -/
inductive TSpace where
  | Stack
  | Local
  | This
  | Other
deriving DecidableEq

/-- A tracer location: a space and an integer offset. -/
structure TLoc where
  space : TSpace
  offset : Int
deriving DecidableEq

/-- Transl::Location::isThis. -/
def TLoc.isThis (l : TLoc) : Bool := l.space == TSpace.This

/-- A tracer runtime type: opaque except for isVagueValue and the lattice
type Type::fromRuntimeType extracts from it. -/
structure RuntimeType where
  vague : Bool
  ty : Ty
deriving DecidableEq

/-- RuntimeType::isVagueValue. -/
def RuntimeType.isVagueValue (r : RuntimeType) : Bool := r.vague

/-- Type::fromRuntimeType, an external collaborator, modelled as projecting
the lattice type carried by the runtime type. -/
def Ty.fromRuntimeType (r : RuntimeType) : Ty := r.ty

/-- One entry of Tracelet::m_dependencies: the location (the map key and the
DynLocation agree on it) and the depended-upon runtime type. -/
structure Dep where
  loc : TLoc
  rtt : RuntimeType
deriving DecidableEq

/-- One entry of Tracelet::m_refDeps.m_arMap: the activation-record stack
offset (the map key) with its mask and value bits. -/
structure RefDep where
  arSpOffset : Int
  mask : List Bool
  vals : List Bool
deriving DecidableEq

/-- The slice of Transl::Tracelet that createRegion consumes: owning
function, starting source key m_sk, the instruction stream in order, the
dependency facts and the reffiness facts. -/
structure Tracelet where
  func : Func
  sk : Nat
  instrs : List NI
  deps : List Dep
  refDeps : List RefDep
deriving DecidableEq

/-- Conversion of a signed integer to uint32_t: reduce modulo 2^32. -/
def uint32OfInt (i : Int) : Nat := (i % (2 ^ 32)).toNat

/-- The ParamByRef value recorded for an argument-pass instruction, from the
tracer preppedByRef determination. -/
def flagOf (b : Bool) : ParamByRef := if b then ParamByRef.Yes else ParamByRef.No

/-- A freshly created block: given function and start offset, zero length,
no metadata.  Models smart::make_unique of Block in createRegion. -/
def mkBlock (f : Func) (start : Nat) : Block := ⟨f, start, 0, [], [], []⟩

/-- The switch of the dependency loop in createRegion: a Stack-space
dependency at tracer offset o becomes Stack with uint32_t(-o - 1), a
Local-space dependency at index i becomes Local with uint32_t(i), and any
other space reaches not_reached(), modelled as none.  A This-space location
never reaches the switch because the loop already skipped it. -/
def translateDepLoc : TLoc → Option RLocation
  | ⟨.Stack, o⟩ => some (.Stack (uint32OfInt (-o - 1)))
  | ⟨.Local, o⟩ => some (.Local (uint32OfInt o))
  | ⟨.This, _⟩ => none
  | ⟨.Other, _⟩ => none

/-- Total form of the dependency-location translation, for stating what the
builder produces; the This and Other cases are unreachable on any run of
the builder that completes (the accompanying theorems carry that fact). -/
def depLocation : TLoc → RLocation
  | ⟨.Stack, o⟩ => .Stack (uint32OfInt (-o - 1))
  | ⟨.Local, o⟩ => .Local (uint32OfInt o)
  | ⟨.This, _⟩ => .Local 0
  | ⟨.Other, _⟩ => .Local 0

/-- The by-reference step of the builder walk: for a non-no-op instruction
recognised by isFPassStar, record the flag at the current source key via
setParamByRef; otherwise leave the block unchanged. -/
def passArgStep (u : CodeUnit) (ni : NI) (sk : Nat) (b : Block) : Option Block :=
  if !ni.noOp && isFPassStar ni.op then
    Block.setParamByRef u b sk (flagOf ni.preppedByRef)
  else some b

/-- The instruction-walk loop of createRegion.  State: the remaining
instruction stream, the current source key sk, and the block under
construction.  Each instruction is appended to the current block and, when
it is a non-no-op argument pass, flagged.  A Jmp that is not the final
instruction computes dest as its offset plus its displacement immediate,
asserts dest is strictly ahead (none models the failed assertion), moves sk
to dest and opens a new block there; otherwise sk advances sequentially.
Returns the blocks from the current one onward, in order. -/
def buildBlocks (u : CodeUnit) (f : Func) : List NI → Nat → Block → Option (List Block)
  | [], _, cur => some [cur]
  | ni :: rest, sk, cur =>
    match passArgStep u ni sk cur.addInstruction with
    | none => none
    | some cur2 =>
      if ni.op = Op.Jmp ∧ rest ≠ [] then
        if (sk : Int) < (sk : Int) + ni.imm then
          match buildBlocks u f rest ((sk : Int) + ni.imm).toNat
              (mkBlock f (((sk : Int) + ni.imm).toNat)) with
          | none => none
          | some bs => some (cur2 :: bs)
        else none
      else buildBlocks u f rest (stepKey u sk) cur2

/-- The dependency loop of createRegion, acting on the front block: skip a
dependency whose runtime type is vague or whose location is the this
receiver; otherwise translate its location and attach a type prediction at
the original starting source key sk0. -/
def addDeps (u : CodeUnit) (sk0 : Nat) : List Dep → Block → Option Block
  | [], b => some b
  | d :: ds, b =>
    if d.rtt.isVagueValue || d.loc.isThis then addDeps u sk0 ds b
    else
      match translateDepLoc d.loc with
      | none => none
      | some l =>
        match Block.addPredicted u b sk0 ⟨l, Ty.fromRuntimeType d.rtt⟩ with
        | none => none
        | some b2 => addDeps u sk0 ds b2

/-- The reffiness loop of createRegion, acting on the front block: attach a
reffiness prediction built from each fact at the original starting source
key sk0. -/
def addRefDeps (u : CodeUnit) (sk0 : Nat) : List RefDep → Block → Option Block
  | [], b => some b
  | r :: rs, b =>
    match Block.addReffinessPred u b sk0 ⟨r.mask, r.vals, r.arSpOffset⟩ with
    | none => none
    | some b2 => addRefDeps u sk0 rs b2

/-- createRegion: walk the instruction stream building the block list, then
attach the dependency type predictions and the reffiness predictions to the
front block.  none models a debug-build assertion failure anywhere in the
process.  The walk always produces at least one block; the empty case below
is unreachable and mapped to none. -/
def createRegion (u : CodeUnit) (tlet : Tracelet) : Option RegionDesc :=
  match buildBlocks u tlet.func tlet.instrs tlet.sk (mkBlock tlet.func tlet.sk) with
  | none => none
  | some [] => none
  | some (b :: bs) =>
    match addDeps u tlet.sk tlet.deps b with
    | none => none
    | some b2 =>
      match addRefDeps u tlet.sk tlet.refDeps b2 with
      | none => none
      | some b3 => some ⟨b3 :: bs⟩

/-- The dispatcher modes of the anonymous RegionMode enum. -/
inductive RegionMode where
  | None
  | OneBC
  | Method
  | Tracelet
deriving DecidableEq

/-- A thrown std::exception, carrying its what() message. -/
structure Err where
  what : String
deriving DecidableEq

/-- RegionContext as far as this file passes it around: it is handed opaque
to the external strategies. -/
structure RegionContext where
  func : Func
  offset : Nat
deriving DecidableEq

/-- The regionMode reader: map the EvalJitRegionSelector string to a mode;
an unrecognised value logs a diagnostic, aborts in a debug build (none),
and otherwise falls back to RegionMode::None. -/
def regionMode (debug : Bool) (s : String) : Option RegionMode :=
  if s = "" then some RegionMode.None
  else if s = "onebc" then some RegionMode.OneBC
  else if s = "method" then some RegionMode.Method
  else if s = "tracelet" then some RegionMode.Tracelet
  else if debug then none
  else some RegionMode.None

/-- selectRegion.  The outer Option models fatal termination (abort on an
unknown selector in a debug build, the failed always_assert when tracelet
mode lacks a trace, or a debug assertion inside the builder); the inner
Option is RegionDescPtr, none meaning no region.  The two external
strategies may raise an error, modelled as Except; the catch boundary of
the source maps any such error to no region. -/
def selectRegion (debug : Bool) (u : CodeUnit) (selector : String)
    (oneBC : RegionContext → Except Err (Option RegionDesc))
    (methodStrat : RegionContext → Except Err (Option RegionDesc))
    (ctx : RegionContext) (t : Option Tracelet) : Option (Option RegionDesc) :=
  match regionMode debug selector with
  | none => none
  | some RegionMode.None => some none
  | some RegionMode.OneBC =>
    some (match oneBC ctx with
          | Except.ok r => r
          | Except.error _ => none)
  | some RegionMode.Method =>
    some (match methodStrat ctx with
          | Except.ok r => r
          | Except.error _ => none)
  | some RegionMode.Tracelet =>
    match t with
    | none => none
    | some tl =>
      match createRegion u tl with
      | none => none
      | some r => some (some r)

/-- The diagnostic rendering show(RegionDesc::ParamByRef) of the source,
verbatim. -/
def showParamByRef : ParamByRef → String
  | .Yes => "by value"
  | .No => "by reference"

/-- Count of Jmp instructions that are not the final instruction of the
stream. -/
def nonFinalJmps : List NI → Nat
  | [] => 0
  | ni :: rest =>
    if ni.op = Op.Jmp ∧ rest ≠ [] then 1 + nonFinalJmps rest else nonFinalJmps rest

/-- Total instruction count of the first i blocks. -/
def lensBefore (bs : List Block) (i : Nat) : Nat :=
  ((bs.take i).map Block.len).sum

/-- The source offset of each instruction of the stream, as the builder walk
computes it: the first instruction sits at the given key; after a non-final
Jmp the key moves to the branch target, otherwise it advances sequentially.
-/
def traceOffsets (u : CodeUnit) : Nat → List NI → List Nat
  | _, [] => []
  | sk, ni :: rest =>
    sk :: (if ni.op = Op.Jmp ∧ rest ≠ []
      then traceOffsets u ((sk : Int) + ni.imm).toNat rest
      else traceOffsets u (stepKey u sk) rest)

/-- The by-reference entry the walk records for an instruction paired with
its offset: present exactly for a non-no-op argument-pass instruction,
carrying the tracer determination. -/
def byRefEntry (p : NI × Nat) : Option (Nat × ParamByRef) :=
  if !p.1.noOp && isFPassStar p.1.op then some (p.2, flagOf p.1.preppedByRef)
  else none

/-- A code unit whose every instruction is one byte long, fallthrough and
not control flow; used for concrete witnesses. -/
def simpleUnit : CodeUnit := fun _ => ⟨1, false, false⟩

/-- A strategy that always succeeds with no region; used for concrete
witnesses. -/
def okStrat : RegionContext → Except Err (Option RegionDesc) := fun _ => Except.ok none

/-- A strategy that always throws; used for concrete witnesses. -/
def errStrat : RegionContext → Except Err (Option RegionDesc) :=
  fun _ => Except.error ⟨"strategy failure"⟩

/-- A concrete context for witnesses. -/
def ctx0 : RegionContext := ⟨⟨1⟩, 0⟩

/-- A concrete one-instruction block for witnesses. -/
def blkOne : Block := ⟨⟨1⟩, 0, 1, [], [], []⟩

/-- A concrete block already holding a by-reference flag at key 0, for the
duplicate-insertion witness. -/
def blkDup : Block := ⟨⟨1⟩, 0, 1, [], [(0, ParamByRef.Yes)], []⟩

/-- A concrete three-instruction tracelet whose middle instruction is a
forward Jmp with displacement 20: offsets 10, 11 and 31. -/
def tletC1 : Tracelet :=
  ⟨⟨1⟩, 10,
   [⟨Op.Other 0, false, false, 0⟩, ⟨Op.Jmp, false, false, 20⟩,
    ⟨Op.Other 0, false, false, 0⟩], [], []⟩

/-- The region the builder produces from tletC1: two blocks, at offset 10 of
length 2 and at offset 31 of length 1. -/
def regionC1 : RegionDesc :=
  ⟨[⟨⟨1⟩, 10, 2, [], [], []⟩, ⟨⟨1⟩, 31, 1, [], [], []⟩]⟩

/-- A concrete one-instruction tracelet with one live Stack dependency of
known type and one vague Local dependency. -/
def tletC2 : Tracelet :=
  ⟨⟨1⟩, 10, [⟨Op.Other 0, false, false, 0⟩],
   [⟨⟨TSpace.Stack, 0⟩, ⟨false, ⟨7, true⟩⟩⟩, ⟨⟨TSpace.Local, 2⟩, ⟨true, ⟨8, true⟩⟩⟩],
   []⟩

/-- The region the builder produces from tletC2: one block with a single
type prediction at key 10 on Stack with uint32_t(-0 - 1). -/
def regionC2 : RegionDesc :=
  ⟨[⟨⟨1⟩, 10, 1, [(10, ⟨RLocation.Stack 4294967295, ⟨7, true⟩⟩)], [], []⟩]⟩

/-- A concrete two-instruction tracelet whose first instruction is an
argument pass prepped by reference. -/
def tletC8 : Tracelet :=
  ⟨⟨1⟩, 0, [⟨Op.FPassStar, false, true, 0⟩, ⟨Op.Other 1, false, false, 0⟩], [], []⟩

/-- The region the builder produces from tletC8: one block of length 2 with
one by-reference flag at key 0. -/
def regionC8 : RegionDesc :=
  ⟨[⟨⟨1⟩, 0, 2, [], [(0, ParamByRef.Yes)], []⟩]⟩

/-- Helper: a successful addPredicted call appended the entry, passed the
invariant checker, and had a type inside the Gen-or-Cls domain. -/
theorem addPredicted_eq_some {u : CodeUnit} {b : Block} {sk : Nat} {pred : TypePred}
    {b2 : Block} (h : Block.addPredicted u b sk pred = some b2) :
    b2 = { b with typePreds := b.typePreds ++ [(sk, pred)] } ∧
    checkInvariantsB true u b2 = true ∧ pred.type.genOrCls = true := by
  unfold Block.addPredicted at h
  split at h
  · exact absurd h (by simp)
  · split at h
    · cases h
      refine ⟨rfl, by assumption, ?_⟩
      rename_i hg _
      simpa using hg
    · exact absurd h (by simp)

/-- Helper: a successful setParamByRef call appended the entry, passed the
invariant checker, and found no previous flag at the key. -/
theorem setParamByRef_eq_some {u : CodeUnit} {b : Block} {sk : Nat} {byRef : ParamByRef}
    {b2 : Block} (h : Block.setParamByRef u b sk byRef = some b2) :
    b2 = { b with byRefs := b.byRefs ++ [(sk, byRef)] } ∧
    checkInvariantsB true u b2 = true ∧
    b.byRefs.any (fun p => p.1 == sk) = false := by
  unfold Block.setParamByRef at h
  split at h
  · exact absurd h (by simp)
  · split at h
    · cases h
      refine ⟨rfl, by assumption, ?_⟩
      rename_i hg _
      exact Bool.eq_false_iff.mpr hg
    · exact absurd h (by simp)

/-- Helper: a successful addReffinessPred call appended the entry and passed
the invariant checker. -/
theorem addReffinessPred_eq_some {u : CodeUnit} {b : Block} {sk : Nat}
    {pred : ReffinessPred} {b2 : Block}
    (h : Block.addReffinessPred u b sk pred = some b2) :
    b2 = { b with refPreds := b.refPreds ++ [(sk, pred)] } ∧
    checkInvariantsB true u b2 = true := by
  unfold Block.addReffinessPred at h
  split at h
  · cases h
    exact ⟨rfl, by assumption⟩
  · exact absurd h (by simp)

/-- Helper: when the debug checker passes on a block of nonzero length,
every type prediction key is in range and every Local id is bounded. -/
theorem check_typePreds_sound {u : CodeUnit} {b : Block}
    (hc : checkInvariantsB true u b = true) (hlen : b.len ≠ 0) :
    ∀ p ∈ b.typePreds, p.1 ∈ blockKeys u b ∧ locOK b.func p.2.location = true := by
  unfold checkInvariantsB at hc
  rw [if_neg (by simp [hlen])] at hc
  simp only [Bool.and_eq_true] at hc
  intro p hp
  have := List.all_eq_true.mp hc.1.1.2 p hp
  simp only [Bool.and_eq_true, decide_eq_true_eq] at this
  exact this

/-- Helper: when the debug checker passes on a block of nonzero length,
every by-reference flag key is in range. -/
theorem check_byRefs_sound {u : CodeUnit} {b : Block}
    (hc : checkInvariantsB true u b = true) (hlen : b.len ≠ 0) :
    ∀ p ∈ b.byRefs, p.1 ∈ blockKeys u b := by
  unfold checkInvariantsB at hc
  rw [if_neg (by simp [hlen])] at hc
  simp only [Bool.and_eq_true] at hc
  intro p hp
  have := List.all_eq_true.mp hc.1.2 p hp
  simpa using this

/-- Helper: when the debug checker passes on a block of nonzero length,
every reffiness prediction key is in range. -/
theorem check_refPreds_sound {u : CodeUnit} {b : Block}
    (hc : checkInvariantsB true u b = true) (hlen : b.len ≠ 0) :
    ∀ p ∈ b.refPreds, p.1 ∈ blockKeys u b := by
  unfold checkInvariantsB at hc
  rw [if_neg (by simp [hlen])] at hc
  simp only [Bool.and_eq_true] at hc
  intro p hp
  have := List.all_eq_true.mp hc.2 p hp
  simpa using this

/-- Helper: iterating the advance function of the one-byte code unit adds
the iteration count. -/
theorem iterate_stepKey_simpleUnit (s i : Nat) : (stepKey simpleUnit)^[i] s = s + i := by
  induction i with
  | zero => simp
  | succ n ih =>
    rw [Function.iterate_succ_apply', ih]
    simp only [stepKey, simpleUnit]
    omega

/-- Helper: under the one-byte code unit the key set of a block is the
interval of length len starting at start. -/
theorem blockKeys_simpleUnit (b : Block) :
    blockKeys simpleUnit b = (List.range b.len).map (fun i => b.start + i) := by
  unfold blockKeys
  simp only [iterate_stepKey_simpleUnit]

/-- Helper: under the one-byte code unit the key set of a block has no
duplicates. -/
theorem blockKeys_simpleUnit_nodup (b : Block) : (blockKeys simpleUnit b).Nodup := by
  rw [blockKeys_simpleUnit]
  exact List.Nodup.map (fun a b h => by omega) (List.nodup_range _)

/-- Helper: the mid-block structure checks always pass under the one-byte
fallthrough code unit. -/
theorem midChecksOK_simpleUnit (s n : Nat) : midChecksOK simpleUnit s n = true := by
  unfold midChecksOK
  rw [List.all_eq_true]
  intro i hi
  split <;> rfl

/-- Helper: the start offset of a block of nonzero length is in its key
set. -/
theorem start_mem_blockKeys (u : CodeUnit) (b : Block) (h : 0 < b.len) :
    b.start ∈ blockKeys u b := by
  unfold blockKeys
  exact List.mem_map.mpr ⟨0, List.mem_range.mpr h, by simp⟩

/-- Helper: the debug checker passes on a block holding one Stack type
prediction keyed at its start, under the one-byte code unit, whatever the
stack offset. -/
theorem checkInv_single_stack (f : Func) (s n off : Nat) (ty : Ty) (hn : 0 < n) :
    checkInvariantsB true simpleUnit
      ⟨f, s, n, [(s, ⟨RLocation.Stack off, ty⟩)], [], []⟩ = true := by
  have hne : n ≠ 0 := Nat.pos_iff_ne_zero.mp hn
  unfold checkInvariantsB
  rw [if_neg (by simp [hne])]
  have hmem : s ∈ blockKeys simpleUnit ⟨f, s, n, [(s, ⟨RLocation.Stack off, ty⟩)], [], []⟩ :=
    start_mem_blockKeys simpleUnit _ hn
  simp [midChecksOK_simpleUnit, blockKeys_simpleUnit_nodup, hmem, locOK]

/-- C9: for every Block whose length is zero, the invariant checker returns
immediately without performing any validation, so any metadata inserted
into a zero-length block (out-of-range position keys, invalid local
indices, every position being outside the empty range) is accepted without
triggering the fatal-contract path even in debug builds.  The first
conjunct states the checker accepts every zero-length block whatever the
three maps hold, for every debug setting; the second shows an insertion
into such a block succeeds unconditionally. -/
theorem claimC9_zero_length_unchecked :
    (∀ (debug : Bool) (u : CodeUnit) (f : Func) (s : Nat)
       (tps : List (Nat × TypePred)) (brs : List (Nat × ParamByRef))
       (rps : List (Nat × ReffinessPred)),
      checkInvariantsB debug u ⟨f, s, 0, tps, brs, rps⟩ = true) ∧
    (∀ (u : CodeUnit) (f : Func) (s : Nat)
       (tps : List (Nat × TypePred)) (brs : List (Nat × ParamByRef))
       (rps : List (Nat × ReffinessPred)) (sk : Nat) (rp : ReffinessPred),
      Block.addReffinessPred u ⟨f, s, 0, tps, brs, rps⟩ sk rp =
        some ⟨f, s, 0, tps, brs, rps ++ [(sk, rp)]⟩) := by
  constructor
  · intro debug u f s tps brs rps
    unfold checkInvariantsB
    simp
  · intro u f s tps brs rps sk rp
    unfold Block.addReffinessPred
    rw [if_pos]
    unfold checkInvariantsB
    simp

/-- C10: the diagnostic rendering of the by-reference flag maps
ParamByRef::Yes to the string by value and ParamByRef::No to the string by
reference, the inverse of what the constant names denote: the builder
records Yes exactly for an argument the tracer prepped by reference
(flagOf true), yet Yes renders as by value. -/
theorem claimC10_byref_rendering :
    showParamByRef ParamByRef.Yes = "by value" ∧
    showParamByRef ParamByRef.No = "by reference" ∧
    flagOf true = ParamByRef.Yes ∧ flagOf false = ParamByRef.No :=
  ⟨rfl, rfl, rfl, rfl⟩

/-- C5 counterexample: the claim says inserting an entry keyed outside the
block range always triggers the fatal-contract path in debug builds, for
every Block; but on a zero-length block the checker returns before any
range check, so inserting a by-reference flag at key 99, outside the empty
range of a block starting at 0 with length 0, succeeds instead of
failing. -/
theorem claimC5_counterexample :
    Block.setParamByRef simpleUnit (mkBlock ⟨0⟩ 0) 99 ParamByRef.Yes =
      some ⟨⟨0⟩, 0, 0, [], [(99, ParamByRef.Yes)], []⟩ := by decide

/-- C5 as amended: for every Block with at least one instruction and every
one of the three mapping kinds, inserting an entry keyed by a position
outside the set of instruction positions of the block triggers the
fatal-contract path in debug builds. -/
theorem claimC5_range_rejection (u : CodeUnit) (b : Block) (sk : Nat)
    (pred : TypePred) (byRef : ParamByRef) (rp : ReffinessPred)
    (hlen : 0 < b.len) (hsk : sk ∉ blockKeys u b) :
    Block.addPredicted u b sk pred = none ∧
    Block.setParamByRef u b sk byRef = none ∧
    Block.addReffinessPred u b sk rp = none := by
  have hne : b.len ≠ 0 := Nat.pos_iff_ne_zero.mp hlen
  refine ⟨?_, ?_, ?_⟩
  · cases hres : Block.addPredicted u b sk pred with
    | none => rfl
    | some b2 =>
      obtain ⟨hb2, hchk, -⟩ := addPredicted_eq_some hres
      subst hb2
      have hmem : (sk, pred) ∈ b.typePreds ++ [(sk, pred)] := by simp
      have hs := (check_typePreds_sound hchk hne (sk, pred) hmem).1
      exact absurd hs hsk
  · cases hres : Block.setParamByRef u b sk byRef with
    | none => rfl
    | some b2 =>
      obtain ⟨hb2, hchk, -⟩ := setParamByRef_eq_some hres
      subst hb2
      have hmem : (sk, byRef) ∈ b.byRefs ++ [(sk, byRef)] := by simp
      have hs := check_byRefs_sound hchk hne (sk, byRef) hmem
      exact absurd hs hsk
  · cases hres : Block.addReffinessPred u b sk rp with
    | none => rfl
    | some b2 =>
      obtain ⟨hb2, hchk⟩ := addReffinessPred_eq_some hres
      subst hb2
      have hmem : (sk, rp) ∈ b.refPreds ++ [(sk, rp)] := by simp
      have hs := check_refPreds_sound hchk hne (sk, rp) hmem
      exact absurd hs hsk

/-- Witness for C5 as amended: on a concrete one-instruction block whose
only key is 0, inserting at key 5 fails for all three mapping kinds. -/
theorem claimC5_witness :
    Block.addPredicted simpleUnit blkOne 5 ⟨RLocation.Stack 0, ⟨0, true⟩⟩ = none ∧
    Block.setParamByRef simpleUnit blkOne 5 ParamByRef.Yes = none ∧
    Block.addReffinessPred simpleUnit blkOne 5 ⟨[], [], 0⟩ = none :=
  claimC5_range_rejection simpleUnit blkOne 5 ⟨RLocation.Stack 0, ⟨0, true⟩⟩
    ParamByRef.Yes ⟨[], [], 0⟩ (by decide) (by decide)

/-- C6 counterexample: the claim says a TypePrediction on Local id with id
at or above the function local count always triggers the fatal-contract
path; but on a zero-length block the checker returns before the bound
check, so a prediction on Local 5 for a function with zero locals is
accepted. -/
theorem claimC6_counterexample :
    Block.addPredicted simpleUnit (mkBlock ⟨0⟩ 0) 0 ⟨RLocation.Local 5, ⟨0, true⟩⟩ =
      some ⟨⟨0⟩, 0, 0, [(0, ⟨RLocation.Local 5, ⟨0, true⟩⟩)], [], []⟩ := by decide

/-- C6 as amended: on every Block with at least one instruction, inserting
a TypePrediction whose Location is Local id with id at or above the owning
function local count triggers the fatal-contract path, while a
TypePrediction whose Location is Stack is never rejected for any offset
value: on an otherwise clean block it is accepted whatever the offset. -/
theorem claimC6_local_bound :
    (∀ (u : CodeUnit) (b : Block) (sk id : Nat) (ty : Ty),
      0 < b.len → b.func.numLocals ≤ id →
      Block.addPredicted u b sk ⟨RLocation.Local id, ty⟩ = none) ∧
    (∀ (f : Func) (s n off : Nat) (ty : Ty), 0 < n → ty.genOrCls = true →
      Block.addPredicted simpleUnit ⟨f, s, n, [], [], []⟩ s ⟨RLocation.Stack off, ty⟩ =
        some ⟨f, s, n, [(s, ⟨RLocation.Stack off, ty⟩)], [], []⟩) := by
  constructor
  · intro u b sk id ty hlen hle
    have hne : b.len ≠ 0 := Nat.pos_iff_ne_zero.mp hlen
    cases hres : Block.addPredicted u b sk ⟨RLocation.Local id, ty⟩ with
    | none => rfl
    | some b2 =>
      obtain ⟨hb2, hchk, -⟩ := addPredicted_eq_some hres
      subst hb2
      have hmem : ((sk, ⟨RLocation.Local id, ty⟩) : Nat × TypePred) ∈
          b.typePreds ++ [(sk, ⟨RLocation.Local id, ty⟩)] := by simp
      have hs := (check_typePreds_sound hchk hne _ hmem).2
      simp only [locOK, decide_eq_true_eq] at hs
      omega
  · intro f s n off ty hn hty
    unfold Block.addPredicted
    rw [if_neg (by simp [hty])]
    simp [checkInv_single_stack f s n off ty hn]

/-- Witness for C6 as amended: Local 3 on a one-local function in a
one-instruction block is rejected; Stack 77 keyed at the start of a clean
two-instruction block is accepted. -/
theorem claimC6_witness :
    Block.addPredicted simpleUnit blkOne 0 ⟨RLocation.Local 3, ⟨0, true⟩⟩ = none ∧
    Block.addPredicted simpleUnit ⟨⟨1⟩, 4, 2, [], [], []⟩ 4 ⟨RLocation.Stack 77, ⟨0, true⟩⟩ =
      some ⟨⟨1⟩, 4, 2, [(4, ⟨RLocation.Stack 77, ⟨0, true⟩⟩)], [], []⟩ :=
  ⟨claimC6_local_bound.1 simpleUnit blkOne 0 3 ⟨0, true⟩ (by decide) (by decide),
   claimC6_local_bound.2 ⟨1⟩ 4 2 77 ⟨0, true⟩ (by decide) rfl⟩

/-- C3: for every context and mode, an error raised by the strategy chosen
by selectRegion is caught and converted to no region (the inner none) and
never propagates; the two strategies able to raise are the external
collaborators, and in either mode an erroring strategy yields some none. -/
theorem claimC3_failure_containment (debug : Bool) (u : CodeUnit) (s : String)
    (oneBC methodStrat : RegionContext → Except Err (Option RegionDesc))
    (ctx : RegionContext) (t : Option Tracelet) (e : Err) :
    (regionMode debug s = some RegionMode.OneBC → oneBC ctx = Except.error e →
      selectRegion debug u s oneBC methodStrat ctx t = some none) ∧
    (regionMode debug s = some RegionMode.Method → methodStrat ctx = Except.error e →
      selectRegion debug u s oneBC methodStrat ctx t = some none) := by
  constructor
  · intro hm he
    unfold selectRegion
    rw [hm, he]
  · intro hm he
    unfold selectRegion
    rw [hm, he]

/-- Witness for C3: a concrete always-throwing strategy in each of the two
delegating modes yields some none. -/
theorem claimC3_witness :
    selectRegion true simpleUnit "onebc" errStrat okStrat ctx0 none = some none ∧
    selectRegion true simpleUnit "method" okStrat errStrat ctx0 none = some none :=
  ⟨(claimC3_failure_containment true simpleUnit "onebc" errStrat okStrat ctx0 none
      ⟨"strategy failure"⟩).1 rfl rfl,
   (claimC3_failure_containment true simpleUnit "method" okStrat errStrat ctx0 none
      ⟨"strategy failure"⟩).2 rfl rfl⟩

/-- C4: in trace-based mode with no trace supplied, selectRegion takes the
fatal-contract path (the failed always_assert, modelled by the outer none)
and in particular does not return the silent no-region answer or any other
answer. -/
theorem claimC4_trace_required (debug : Bool) (u : CodeUnit)
    (oneBC methodStrat : RegionContext → Except Err (Option RegionDesc))
    (ctx : RegionContext) :
    selectRegion debug u "tracelet" oneBC methodStrat ctx none = none ∧
    ∀ r : Option RegionDesc,
      selectRegion debug u "tracelet" oneBC methodStrat ctx none ≠ some r := by
  have h : selectRegion debug u "tracelet" oneBC methodStrat ctx none = none := rfl
  exact ⟨h, fun r hr => by rw [h] at hr; cases hr⟩

/-- C7: selectRegion with the empty selector string (Disabled) returns no
region whatever the strategies are, so no strategy is invoked; an
unrecognised selector string is treated as Disabled in a release build
(returning no region) and is fatal in a debug build. -/
theorem claimC7_disabled_modes (u : CodeUnit)
    (oneBC methodStrat : RegionContext → Except Err (Option RegionDesc))
    (ctx : RegionContext) (t : Option Tracelet) :
    (∀ debug, selectRegion debug u "" oneBC methodStrat ctx t = some none) ∧
    (∀ s, s ≠ "" → s ≠ "onebc" → s ≠ "method" → s ≠ "tracelet" →
      selectRegion false u s oneBC methodStrat ctx t = some none ∧
      selectRegion true u s oneBC methodStrat ctx t = none) := by
  constructor
  · intro debug
    rfl
  · intro s h1 h2 h3 h4
    constructor
    · unfold selectRegion regionMode
      rw [if_neg h1, if_neg h2, if_neg h3, if_neg h4]
      rfl
    · unfold selectRegion regionMode
      rw [if_neg h1, if_neg h2, if_neg h3, if_neg h4]
      rfl

/-- Witness for C7: the empty selector gives no region in both build
flavours, and the concrete unrecognised selector string given below gives
no region in release and the fatal path in debug. -/
theorem claimC7_witness :
    (∀ debug, selectRegion debug simpleUnit "" okStrat okStrat ctx0 none = some none) ∧
    (selectRegion false simpleUnit "bogus" okStrat okStrat ctx0 none = some none ∧
     selectRegion true simpleUnit "bogus" okStrat okStrat ctx0 none = none) :=
  ⟨(claimC7_disabled_modes simpleUnit okStrat okStrat ctx0 none).1,
   (claimC7_disabled_modes simpleUnit okStrat okStrat ctx0 none).2 "bogus"
     (by decide) (by decide) (by decide) (by decide)⟩

/-- Helper: a successful pass-argument step leaves every field except the
by-reference map unchanged and appends the flag exactly when the
instruction is a non-no-op argument pass. -/
theorem passArgStep_eq_some {u : CodeUnit} {ni : NI} {sk : Nat} {b b2 : Block}
    (h : passArgStep u ni sk b = some b2) :
    b2.func = b.func ∧ b2.start = b.start ∧ b2.len = b.len ∧
    b2.typePreds = b.typePreds ∧ b2.refPreds = b.refPreds ∧
    b2.byRefs = b.byRefs ++
      (if !ni.noOp && isFPassStar ni.op then [(sk, flagOf ni.preppedByRef)] else []) := by
  unfold passArgStep at h
  split at h
  · rename_i hcond
    obtain ⟨hb2, -, -⟩ := setParamByRef_eq_some h
    subst hb2
    simp [hcond]
  · rename_i hcond
    cases h
    simp [hcond]

/-- Helper: unfolding lensBefore over a cons cell. -/
theorem lensBefore_cons (b : Block) (t : List Block) (i : Nat) :
    lensBefore (b :: t) (i + 1) = b.len + lensBefore t i := by
  simp [lensBefore]

/-- Helper: lensBefore of the first zero blocks is zero. -/
theorem lensBefore_zero (bs : List Block) : lensBefore bs 0 = 0 := rfl

/-- Helper: the walk produces one more block than it sees non-final Jmp
instructions. -/
theorem buildBlocks_count (u : CodeUnit) (f : Func) :
    ∀ (nis : List NI) (sk : Nat) (cur : Block) (bs : List Block),
      buildBlocks u f nis sk cur = some bs →
      bs.length = nonFinalJmps nis + 1 := by
  intro nis
  induction nis with
  | nil =>
    intro sk cur bs h
    simp only [buildBlocks, Option.some.injEq] at h
    subst h
    simp [nonFinalJmps]
  | cons ni rest ih =>
    intro sk cur bs h
    simp only [buildBlocks] at h
    split at h
    · exact absurd h (by simp)
    · rename_i cur2 hp
      split at h
      · rename_i hj
        split at h
        · split at h
          · exact absurd h (by simp)
          · rename_i bs2 hb
            injection h with h
            subst h
            have hlen := ih _ _ _ hb
            simp only [nonFinalJmps, List.length_cons]
            rw [if_pos hj]
            omega
        · exact absurd h (by simp)
      · rename_i hj
        have := ih _ _ _ h
        simp only [nonFinalJmps]
        rw [if_neg hj]
        exact this

/-- Helper: the block lengths of the walk output sum to the instructions
already in the current block plus the instructions remaining in the
stream. -/
theorem buildBlocks_sum (u : CodeUnit) (f : Func) :
    ∀ (nis : List NI) (sk : Nat) (cur : Block) (bs : List Block),
      buildBlocks u f nis sk cur = some bs →
      (bs.map Block.len).sum = cur.len + nis.length := by
  intro nis
  induction nis with
  | nil =>
    intro sk cur bs h
    simp only [buildBlocks, Option.some.injEq] at h
    subst h
    simp
  | cons ni rest ih =>
    intro sk cur bs h
    simp only [buildBlocks] at h
    split at h
    · exact absurd h (by simp)
    · rename_i cur2 hp
      obtain ⟨-, -, hlen2, -, -, -⟩ := passArgStep_eq_some hp
      simp only [Block.addInstruction] at hlen2
      split at h
      · rename_i hj
        split at h
        · split at h
          · exact absurd h (by simp)
          · rename_i bs2 hb
            injection h with h
            subst h
            have hsum := ih _ _ _ hb
            simp only [mkBlock] at hsum
            simp only [List.map_cons, List.sum_cons, List.length_cons]
            omega
        · exact absurd h (by simp)
      · rename_i hj
        have hsum := ih _ _ _ h
        simp only [List.length_cons]
        omega

/-- Helper: the walk output is nonempty and its head extends the current
block, keeping its function, start offset, type predictions and reffiness
predictions. -/
theorem buildBlocks_head (u : CodeUnit) (f : Func) :
    ∀ (nis : List NI) (sk : Nat) (cur : Block) (bs : List Block),
      buildBlocks u f nis sk cur = some bs →
      ∃ b1 t, bs = b1 :: t ∧ b1.func = cur.func ∧ b1.start = cur.start ∧
        b1.typePreds = cur.typePreds ∧ b1.refPreds = cur.refPreds := by
  intro nis
  induction nis with
  | nil =>
    intro sk cur bs h
    simp only [buildBlocks, Option.some.injEq] at h
    subst h
    exact ⟨cur, [], rfl, rfl, rfl, rfl, rfl⟩
  | cons ni rest ih =>
    intro sk cur bs h
    simp only [buildBlocks] at h
    split at h
    · exact absurd h (by simp)
    · rename_i cur2 hp
      obtain ⟨hf2, hs2, -, htp2, hrp2, -⟩ := passArgStep_eq_some hp
      simp only [Block.addInstruction] at hf2 hs2 htp2 hrp2
      split at h
      · rename_i hj
        split at h
        · split at h
          · exact absurd h (by simp)
          · rename_i bs2 hb
            injection h with h
            subst h
            exact ⟨cur2, bs2, rfl, hf2, hs2, htp2, hrp2⟩
        · exact absurd h (by simp)
      · rename_i hj
        obtain ⟨b1, t, rfl, h1, h2, h3, h4⟩ := ih _ _ _ h
        exact ⟨b1, t, rfl, h1.trans hf2, h2.trans hs2, h3.trans htp2, h4.trans hrp2⟩

/-- Helper: every block of the walk output other than the head was opened
fresh by the walk and carries no type or reffiness predictions. -/
theorem buildBlocks_tail (u : CodeUnit) (f : Func) :
    ∀ (nis : List NI) (sk : Nat) (cur : Block) (bs : List Block),
      buildBlocks u f nis sk cur = some bs →
      ∀ b ∈ bs.tail, b.typePreds = [] ∧ b.refPreds = [] := by
  intro nis
  induction nis with
  | nil =>
    intro sk cur bs h
    simp only [buildBlocks, Option.some.injEq] at h
    subst h
    simp
  | cons ni rest ih =>
    intro sk cur bs h
    simp only [buildBlocks] at h
    split at h
    · exact absurd h (by simp)
    · rename_i cur2 hp
      split at h
      · rename_i hj
        split at h
        · split at h
          · exact absurd h (by simp)
          · rename_i bs2 hb
            injection h with h
            subst h
            intro b hbmem
            simp only [List.tail_cons] at hbmem
            obtain ⟨b1, t, rfl, -, -, h3, h4⟩ := buildBlocks_head u f _ _ _ _ hb
            rcases List.mem_cons.mp hbmem with rfl | hmem
            · constructor
              · exact h3.trans (by simp [mkBlock])
              · exact h4.trans (by simp [mkBlock])
            · exact ih _ _ _ hb b (by simpa using hmem)
        · exact absurd h (by simp)
      · rename_i hj
        exact ih _ _ _ h

/-- Helper: every Jmp instruction of the stream ends up as the final
instruction of one of the produced blocks: its position in the stream,
counted from the instructions already in the current block, is a partial
sum of block lengths. -/
theorem buildBlocks_jmp_last (u : CodeUnit) (f : Func) :
    ∀ (nis : List NI) (sk : Nat) (cur : Block) (bs : List Block),
      buildBlocks u f nis sk cur = some bs →
      ∀ (m : Nat) (ni2 : NI), nis.get? m = some ni2 → ni2.op = Op.Jmp →
        ∃ i, i < bs.length ∧ m + 1 + cur.len = lensBefore bs (i + 1) := by
  intro nis
  induction nis with
  | nil =>
    intro sk cur bs h m ni2 hni
    simp at hni
  | cons ni rest ih =>
    intro sk cur bs h m ni2 hni hop
    simp only [buildBlocks] at h
    split at h
    · exact absurd h (by simp)
    · rename_i cur2 hp
      obtain ⟨-, -, hlen2, -, -, -⟩ := passArgStep_eq_some hp
      simp only [Block.addInstruction] at hlen2
      split at h
      · rename_i hj
        split at h
        · split at h
          · exact absurd h (by simp)
          · rename_i bs2 hb
            injection h with h
            subst h
            cases m with
            | zero =>
              refine ⟨0, by simp, ?_⟩
              rw [lensBefore_cons, lensBefore_zero]
              omega
            | succ m =>
              simp only [List.get?_cons_succ] at hni
              obtain ⟨i2, hi2, heq⟩ := ih _ _ _ hb m ni2 hni hop
              refine ⟨i2 + 1, by simpa using hi2, ?_⟩
              rw [lensBefore_cons]
              simp only [mkBlock] at heq
              omega
        · exact absurd h (by simp)
      · rename_i hj
        cases m with
        | zero =>
          simp only [List.get?_cons_zero, Option.some.injEq] at hni
          subst hni
          have hrest : rest = [] := by
            by_contra hne
            exact hj ⟨hop, hne⟩
          subst hrest
          simp only [buildBlocks, Option.some.injEq] at h
          subst h
          refine ⟨0, by simp, ?_⟩
          rw [lensBefore_cons, lensBefore_zero]
          omega
        | succ m =>
          simp only [List.get?_cons_succ] at hni
          obtain ⟨i2, hi2, heq⟩ := ih _ _ _ h m ni2 hni hop
          exact ⟨i2, hi2, by omega⟩

/-- Helper: consecutive blocks of the walk output are linked by a Jmp: the
last instruction of the earlier block is a Jmp of the stream, sitting at a
partial sum of block lengths, its target is strictly ahead of its own
offset, and the later block starts exactly at that target. -/
theorem buildBlocks_boundary (u : CodeUnit) (f : Func) :
    ∀ (nis : List NI) (sk : Nat) (cur : Block) (bs : List Block),
      buildBlocks u f nis sk cur = some bs →
      sk = (stepKey u)^[cur.len] cur.start →
      ∀ (i : Nat) (b b2 : Block), bs.get? i = some b → bs.get? (i + 1) = some b2 →
        ∃ (m : Nat) (ni2 : NI), nis.get? m = some ni2 ∧
          m + 1 + cur.len = lensBefore bs (i + 1) ∧ ni2.op = Op.Jmp ∧
          ((((stepKey u)^[b.len - 1] b.start : Nat) : Int) <
            (((stepKey u)^[b.len - 1] b.start : Nat) : Int) + ni2.imm) ∧
          b2.start = ((((stepKey u)^[b.len - 1] b.start : Nat) : Int) + ni2.imm).toNat := by
  intro nis
  induction nis with
  | nil =>
    intro sk cur bs h hsk i b b2 hgb hgb2
    simp only [buildBlocks, Option.some.injEq] at h
    subst h
    simp at hgb2
  | cons ni rest ih =>
    intro sk cur bs h hsk i b b2 hgb hgb2
    simp only [buildBlocks] at h
    split at h
    · exact absurd h (by simp)
    · rename_i cur2 hp
      obtain ⟨hf2, hs2, hlen2, -, -, -⟩ := passArgStep_eq_some hp
      simp only [Block.addInstruction] at hf2 hs2 hlen2
      split at h
      · rename_i hj
        split at h
        · rename_i hlt
          split at h
          · exact absurd h (by simp)
          · rename_i bs2 hb
            injection h with h
            subst h
            cases i with
            | zero =>
              simp only [List.get?_cons_zero, Option.some.injEq] at hgb
              subst hgb
              simp only [List.get?_cons_succ] at hgb2
              obtain ⟨b1, t, rfl, -, hbstart, -, -⟩ := buildBlocks_head u f _ _ _ _ hb
              simp only [List.get?_cons_zero, Option.some.injEq] at hgb2
              subst hgb2
              have hoff : (stepKey u)^[cur2.len - 1] cur2.start = sk := by
                rw [hs2, hlen2]
                simpa using hsk.symm
              refine ⟨0, ni, rfl, ?_, hj.1, ?_, ?_⟩
              · rw [lensBefore_cons, lensBefore_zero]
                omega
              · rw [hoff]
                exact hlt
              · rw [hoff, hbstart]
                simp [mkBlock]
            | succ i =>
              simp only [List.get?_cons_succ] at hgb hgb2
              have hsk2 : ((sk : Int) + ni.imm).toNat =
                  (stepKey u)^[(mkBlock f (((sk : Int) + ni.imm).toNat)).len]
                    (mkBlock f (((sk : Int) + ni.imm).toNat)).start := by
                simp [mkBlock]
              obtain ⟨m2, ni2, hni2, hlb, hop2, hineq, hstart⟩ :=
                ih _ _ _ hb hsk2 i b b2 hgb hgb2
              refine ⟨m2 + 1, ni2, by simpa using hni2, ?_, hop2, hineq, hstart⟩
              rw [lensBefore_cons]
              simp only [mkBlock] at hlb
              omega
        · exact absurd h (by simp)
      · rename_i hj
        have hsk2 : stepKey u sk = (stepKey u)^[cur2.len] cur2.start := by
          rw [hlen2, hs2, Function.iterate_succ_apply', ← hsk]
        obtain ⟨m2, ni2, hni2, hlb, hop2, hineq, hstart⟩ :=
          ih _ _ _ h hsk2 i b b2 hgb hgb2
        exact ⟨m2 + 1, ni2, by simpa using hni2, by omega, hop2, hineq, hstart⟩

/-- Helper: concatenating the by-reference maps of the walk output in block
order yields, beyond those of the current block, exactly one entry per
non-no-op argument-pass instruction of the stream, keyed by the offset the
walk assigns to that instruction and carrying the tracer determination. -/
theorem buildBlocks_byRefs (u : CodeUnit) (f : Func) :
    ∀ (nis : List NI) (sk : Nat) (cur : Block) (bs : List Block),
      buildBlocks u f nis sk cur = some bs →
      (bs.map Block.byRefs).flatten =
        cur.byRefs ++ (nis.zip (traceOffsets u sk nis)).filterMap byRefEntry := by
  intro nis
  induction nis with
  | nil =>
    intro sk cur bs h
    simp only [buildBlocks, Option.some.injEq] at h
    subst h
    simp [traceOffsets]
  | cons ni rest ih =>
    intro sk cur bs h
    simp only [buildBlocks] at h
    split at h
    · exact absurd h (by simp)
    · rename_i cur2 hp
      obtain ⟨-, -, -, -, -, hbr2⟩ := passArgStep_eq_some hp
      simp only [Block.addInstruction] at hbr2
      split at h
      · rename_i hj
        split at h
        · rename_i hlt
          split at h
          · exact absurd h (by simp)
          · rename_i bs2 hb
            injection h with h
            subst h
            have hIH := ih _ _ _ hb
            simp only [mkBlock] at hIH
            rw [List.map_cons, List.flatten_cons, hIH, hbr2]
            simp only [traceOffsets]
            rw [if_pos hj]
            simp [byRefEntry, hj.1, isFPassStar, List.filterMap_cons]
        · exact absurd h (by simp)
      · rename_i hj
        have hIH := ih _ _ _ h
        rw [hIH, hbr2]
        simp only [traceOffsets]
        rw [if_neg hj]
        by_cases hcond : (!ni.noOp && isFPassStar ni.op) = true
        · simp [byRefEntry, hcond, List.filterMap_cons, List.append_assoc]
        · simp [byRefEntry, hcond, List.filterMap_cons]

/-- Helper: a successful location translation produces exactly the value of
the total translation, and only Stack-space and Local-space locations
translate. -/
theorem translateDepLoc_some {l : TLoc} {r : RLocation} (h : translateDepLoc l = some r) :
    r = depLocation l ∧ (l.space = TSpace.Stack ∨ l.space = TSpace.Local) := by
  obtain ⟨space, off⟩ := l
  cases space with
  | Stack =>
    simp only [translateDepLoc, Option.some.injEq] at h
    subst h
    exact ⟨rfl, Or.inl rfl⟩
  | Local =>
    simp only [translateDepLoc, Option.some.injEq] at h
    subst h
    exact ⟨rfl, Or.inr rfl⟩
  | This => simp [translateDepLoc] at h
  | Other => simp [translateDepLoc] at h

/-- Helper: a successful dependency loop leaves every field of the front
block unchanged except the type predictions, to which it appends one
prediction per live dependency of known type not on the this receiver,
keyed at the original start, in dependency order; furthermore every such
dependency sits in the Stack or Local space. -/
theorem addDeps_spec (u : CodeUnit) (sk0 : Nat) :
    ∀ (ds : List Dep) (b b2 : Block), addDeps u sk0 ds b = some b2 →
      b2.func = b.func ∧ b2.start = b.start ∧ b2.len = b.len ∧
      b2.byRefs = b.byRefs ∧ b2.refPreds = b.refPreds ∧
      b2.typePreds = b.typePreds ++
        (ds.filter (fun d => !(d.rtt.isVagueValue || d.loc.isThis))).map
          (fun d => (sk0, ⟨depLocation d.loc, Ty.fromRuntimeType d.rtt⟩)) ∧
      (∀ d ∈ ds, !(d.rtt.isVagueValue || d.loc.isThis) = true →
        d.loc.space = TSpace.Stack ∨ d.loc.space = TSpace.Local) := by
  intro ds
  induction ds with
  | nil =>
    intro b b2 h
    simp only [addDeps, Option.some.injEq] at h
    subst h
    simp
  | cons d ds ih =>
    intro b b2 h
    simp only [addDeps] at h
    split at h
    · rename_i hskip
      obtain ⟨h1, h2, h3, h4, h5, h6, h7⟩ := ih _ _ h
      refine ⟨h1, h2, h3, h4, h5, ?_, ?_⟩
      · rw [h6]
        congr 2
        rw [List.filter_cons_of_neg (by simp [hskip])]
      · intro d2 hd2 hq
        rcases List.mem_cons.mp hd2 with rfl | hmem
        · exact absurd hq (by simp [hskip])
        · exact h7 d2 hmem hq
    · rename_i hskip
      split at h
      · exact absurd h (by simp)
      · rename_i l htr
        split at h
        · exact absurd h (by simp)
        · rename_i b3 hadd
          obtain ⟨hb3, -, -⟩ := addPredicted_eq_some hadd
          obtain ⟨hloc, hsp⟩ := translateDepLoc_some htr
          obtain ⟨h1, h2, h3, h4, h5, h6, h7⟩ := ih _ _ h
          subst hb3
          refine ⟨h1, h2, h3, h4, h5, ?_, ?_⟩
          · rw [h6]
            rw [List.filter_cons_of_pos (by simp [hskip])]
            simp [hloc]
          · intro d2 hd2 hq
            rcases List.mem_cons.mp hd2 with rfl | hmem
            · exact hsp
            · exact h7 d2 hmem hq

/-- Helper: a successful reffiness loop leaves every field of the front
block unchanged except the reffiness predictions, to which it appends one
predicate per fact, keyed at the original start, in fact order. -/
theorem addRefDeps_spec (u : CodeUnit) (sk0 : Nat) :
    ∀ (rs : List RefDep) (b b2 : Block), addRefDeps u sk0 rs b = some b2 →
      b2.func = b.func ∧ b2.start = b.start ∧ b2.len = b.len ∧
      b2.byRefs = b.byRefs ∧ b2.typePreds = b.typePreds ∧
      b2.refPreds = b.refPreds ++
        rs.map (fun r => (sk0, (⟨r.mask, r.vals, r.arSpOffset⟩ : ReffinessPred))) := by
  intro rs
  induction rs with
  | nil =>
    intro b b2 h
    simp only [addRefDeps, Option.some.injEq] at h
    subst h
    simp
  | cons r rs ih =>
    intro b b2 h
    simp only [addRefDeps] at h
    split at h
    · exact absurd h (by simp)
    · rename_i b3 hadd
      obtain ⟨hb3, -⟩ := addReffinessPred_eq_some hadd
      obtain ⟨h1, h2, h3, h4, h5, h6⟩ := ih _ _ h
      subst hb3
      refine ⟨h1, h2, h3, h4, h5, ?_⟩
      rw [h6]
      simp

/-- Helper: a successful createRegion run decomposes into a successful walk
whose front block then receives the dependency predictions and reffiness
predictions, all other blocks passing through untouched. -/
theorem createRegion_spec {u : CodeUnit} {tlet : Tracelet} {region : RegionDesc}
    (h : createRegion u tlet = some region) :
    ∃ (b1 b3 : Block) (bs : List Block),
      buildBlocks u tlet.func tlet.instrs tlet.sk (mkBlock tlet.func tlet.sk) =
        some (b1 :: bs) ∧
      region.blocks = b3 :: bs ∧
      b3.func = b1.func ∧ b3.start = b1.start ∧ b3.len = b1.len ∧
      b3.byRefs = b1.byRefs ∧
      b3.typePreds = b1.typePreds ++
        (tlet.deps.filter (fun d => !(d.rtt.isVagueValue || d.loc.isThis))).map
          (fun d => (tlet.sk, ⟨depLocation d.loc, Ty.fromRuntimeType d.rtt⟩)) ∧
      b3.refPreds = b1.refPreds ++
        tlet.refDeps.map (fun r => (tlet.sk, (⟨r.mask, r.vals, r.arSpOffset⟩ : ReffinessPred))) ∧
      (∀ d ∈ tlet.deps, !(d.rtt.isVagueValue || d.loc.isThis) = true →
        d.loc.space = TSpace.Stack ∨ d.loc.space = TSpace.Local) := by
  unfold createRegion at h
  split at h
  · exact absurd h (by simp)
  · exact absurd h (by simp)
  · rename_i b bs hbb
    split at h
    · exact absurd h (by simp)
    · rename_i b2 hdeps
      split at h
      · exact absurd h (by simp)
      · rename_i b3 hrefs
        injection h with h
        subst h
        obtain ⟨d1, d2, d3, d4, d5, d6, d7⟩ := addDeps_spec u tlet.sk _ _ _ hdeps
        obtain ⟨r1, r2, r3, r4, r5, r6⟩ := addRefDeps_spec u tlet.sk _ _ _ hrefs
        refine ⟨b, b3, bs, hbb, rfl, r1.trans d1, r2.trans d2, r3.trans d3,
          r4.trans d4, r5.trans d6, ?_, d7⟩
        rw [r6, d5]

/-- C1: for every input trace containing exactly k non-final Jmp
instructions, the builder (when it completes, so no debug assertion fired)
produces a region with exactly k plus one blocks; every Jmp of the trace is
the final instruction of its block (single entry, single exit with respect
to the control transfers of the model); and for every i the start of block
i plus one equals the branch target computed as the offset of the last
instruction of block i, which is a Jmp of the trace, plus its displacement
immediate, that target being strictly greater than the jump offset. -/
theorem claimC1_trace_splitting (u : CodeUnit) (tlet : Tracelet) (region : RegionDesc)
    (h : createRegion u tlet = some region) :
    region.blocks.length = nonFinalJmps tlet.instrs + 1 ∧
    (∀ (m : Nat) (ni2 : NI), tlet.instrs.get? m = some ni2 → ni2.op = Op.Jmp →
      ∃ i, i < region.blocks.length ∧ m + 1 = lensBefore region.blocks (i + 1)) ∧
    (∀ (i : Nat) (b b2 : Block),
      region.blocks.get? i = some b → region.blocks.get? (i + 1) = some b2 →
      ∃ (m : Nat) (ni2 : NI), tlet.instrs.get? m = some ni2 ∧
        m + 1 = lensBefore region.blocks (i + 1) ∧ ni2.op = Op.Jmp ∧
        ((((stepKey u)^[b.len - 1] b.start : Nat) : Int) <
          (((stepKey u)^[b.len - 1] b.start : Nat) : Int) + ni2.imm) ∧
        b2.start = ((((stepKey u)^[b.len - 1] b.start : Nat) : Int) + ni2.imm).toNat) := by
  obtain ⟨b1, b3, bs, hbb, hblocks, -, h3s, h3l, -, -, -, -⟩ := createRegion_spec h
  have hsk0 : tlet.sk =
      (stepKey u)^[(mkBlock tlet.func tlet.sk).len] (mkBlock tlet.func tlet.sk).start := by
    simp [mkBlock]
  refine ⟨?_, ?_, ?_⟩
  · have hc := buildBlocks_count u tlet.func _ _ _ _ hbb
    rw [hblocks]
    simpa using hc
  · intro m ni2 hm hop
    obtain ⟨i, hi, heq⟩ := buildBlocks_jmp_last u tlet.func _ _ _ _ hbb m ni2 hm hop
    simp only [mkBlock] at heq
    refine ⟨i, ?_, ?_⟩
    · rw [hblocks]
      simpa using hi
    · rw [hblocks]
      cases i with
      | zero =>
        rw [lensBefore_cons, lensBefore_zero] at heq ⊢
        omega
      | succ i =>
        rw [lensBefore_cons] at heq ⊢
        omega
  · intro i b b2 hgb hgb2
    rw [hblocks] at hgb hgb2
    cases i with
    | zero =>
      simp only [List.get?_cons_zero, Option.some.injEq] at hgb
      subst hgb
      simp only [List.get?_cons_succ] at hgb2
      obtain ⟨m, ni2, hm, hlb, hop, hineq, hstart⟩ :=
        buildBlocks_boundary u tlet.func _ _ _ _ hbb hsk0 0 b1 b2 rfl
          (by simpa using hgb2)
      simp only [mkBlock] at hlb
      rw [lensBefore_cons, lensBefore_zero] at hlb
      refine ⟨m, ni2, hm, ?_, hop, ?_, ?_⟩
      · rw [hblocks, lensBefore_cons, lensBefore_zero]
        omega
      · rw [h3l, h3s]
        exact hineq
      · rw [h3l, h3s]
        exact hstart
    | succ i =>
      simp only [List.get?_cons_succ] at hgb hgb2
      obtain ⟨m, ni2, hm, hlb, hop, hineq, hstart⟩ :=
        buildBlocks_boundary u tlet.func _ _ _ _ hbb hsk0 (i + 1) b b2
          (by simpa using hgb) (by simpa using hgb2)
      simp only [mkBlock] at hlb
      rw [lensBefore_cons] at hlb
      refine ⟨m, ni2, hm, ?_, hop, hineq, hstart⟩
      rw [hblocks, lensBefore_cons]
      omega

/-- Witness for C1: the concrete trace at offsets 10, 11 and 31 whose
middle instruction is a forward Jmp with displacement 20 yields the
two-block region regionC1, with the stated count, jump-placement and
boundary facts. -/
theorem claimC1_witness :
    regionC1.blocks.length = nonFinalJmps tletC1.instrs + 1 ∧
    (∀ (m : Nat) (ni2 : NI), tletC1.instrs.get? m = some ni2 → ni2.op = Op.Jmp →
      ∃ i, i < regionC1.blocks.length ∧ m + 1 = lensBefore regionC1.blocks (i + 1)) ∧
    (∀ (i : Nat) (b b2 : Block),
      regionC1.blocks.get? i = some b → regionC1.blocks.get? (i + 1) = some b2 →
      ∃ (m : Nat) (ni2 : NI), tletC1.instrs.get? m = some ni2 ∧
        m + 1 = lensBefore regionC1.blocks (i + 1) ∧ ni2.op = Op.Jmp ∧
        ((((stepKey simpleUnit)^[b.len - 1] b.start : Nat) : Int) <
          (((stepKey simpleUnit)^[b.len - 1] b.start : Nat) : Int) + ni2.imm) ∧
        b2.start =
          ((((stepKey simpleUnit)^[b.len - 1] b.start : Nat) : Int) + ni2.imm).toNat) :=
  claimC1_trace_splitting simpleUnit tletC1 regionC1 (by decide)

/-- C2: when the builder completes, the first block of the region carries
exactly one type prediction per live dependency fact whose type is known
(not vague) and whose location is not the this receiver, keyed at the
original starting position, a Stack-space dependency at tracer offset o
translated to Stack with uint32_t(-o - 1) and a Local-space dependency at
index i translated to Local with uint32_t(i); vague or this facts generate
nothing, every translated fact is in the Stack or Local space, and no
other block carries any type prediction. -/
theorem claimC2_dependency_predictions (u : CodeUnit) (tlet : Tracelet)
    (region : RegionDesc) (h : createRegion u tlet = some region) :
    ∃ (b1 : Block) (t : List Block), region.blocks = b1 :: t ∧
      (∀ d ∈ tlet.deps, !(d.rtt.isVagueValue || d.loc.isThis) = true →
        d.loc.space = TSpace.Stack ∨ d.loc.space = TSpace.Local) ∧
      b1.typePreds =
        (tlet.deps.filter (fun d => !(d.rtt.isVagueValue || d.loc.isThis))).map
          (fun d => (tlet.sk, ⟨depLocation d.loc, Ty.fromRuntimeType d.rtt⟩)) ∧
      (∀ b ∈ t, b.typePreds = []) := by
  obtain ⟨b1, b3, bs, hbb, hblocks, -, -, -, -, htp, -, hsp⟩ := createRegion_spec h
  obtain ⟨bh, th, heq, -, -, htp1, -⟩ := buildBlocks_head u tlet.func _ _ _ _ hbb
  injection heq with e1 e2
  subst e1
  subst e2
  simp only [mkBlock] at htp1
  refine ⟨b3, bs, hblocks, hsp, ?_, ?_⟩
  · rw [htp, htp1]
    simp
  · intro b hmem
    exact (buildBlocks_tail u tlet.func _ _ _ _ hbb b (by simpa using hmem)).1

/-- Witness for C2: the concrete one-instruction trace with one live Stack
dependency of known type and one vague dependency yields regionC2, whose
single block carries exactly the one translated prediction. -/
theorem claimC2_witness :
    ∃ (b1 : Block) (t : List Block), regionC2.blocks = b1 :: t ∧
      (∀ d ∈ tletC2.deps, !(d.rtt.isVagueValue || d.loc.isThis) = true →
        d.loc.space = TSpace.Stack ∨ d.loc.space = TSpace.Local) ∧
      b1.typePreds =
        (tletC2.deps.filter (fun d => !(d.rtt.isVagueValue || d.loc.isThis))).map
          (fun d => (tletC2.sk, ⟨depLocation d.loc, Ty.fromRuntimeType d.rtt⟩)) ∧
      (∀ b ∈ t, b.typePreds = []) :=
  claimC2_dependency_predictions simpleUnit tletC2 regionC2 (by decide)

/-- C8: during the builder walk a ByRefFlag is recorded at an instruction
position exactly when that instruction is a non-no-op argument pass,
carrying the tracer by-reference determination: concatenating the
by-reference maps of the produced blocks equals filtering the instruction
stream, paired with its walk offsets, through byRefEntry.  Moreover
inserting a second flag for a position that already has one is a contract
violation: setParamByRef fails on a duplicate key. -/
theorem claimC8_byref_flags :
    (∀ (u : CodeUnit) (tlet : Tracelet) (region : RegionDesc),
      createRegion u tlet = some region →
      (region.blocks.map Block.byRefs).flatten =
        (tlet.instrs.zip (traceOffsets u tlet.sk tlet.instrs)).filterMap byRefEntry) ∧
    (∀ (u : CodeUnit) (b : Block) (sk : Nat) (byRef : ParamByRef),
      b.byRefs.any (fun p => p.1 == sk) = true →
      Block.setParamByRef u b sk byRef = none) := by
  constructor
  · intro u tlet region h
    obtain ⟨b1, b3, bs, hbb, hblocks, -, -, -, hbr, -, -, -⟩ := createRegion_spec h
    have hflat := buildBlocks_byRefs u tlet.func _ _ _ _ hbb
    rw [hblocks]
    have heq : ((b3 :: bs).map Block.byRefs).flatten =
        ((b1 :: bs).map Block.byRefs).flatten := by
      simp [hbr]
    rw [heq, hflat]
    simp [mkBlock]
  · intro u b sk byRef hdup
    unfold Block.setParamByRef
    rw [if_pos hdup]

/-- Witness for C8: the concrete trace whose first instruction is an
argument pass prepped by reference yields regionC8 with exactly one flag,
and inserting a second flag at an occupied key of a concrete block
fails. -/
theorem claimC8_witness :
    (regionC8.blocks.map Block.byRefs).flatten =
      (tletC8.instrs.zip (traceOffsets simpleUnit tletC8.sk tletC8.instrs)).filterMap
        byRefEntry ∧
    Block.setParamByRef simpleUnit blkDup 0 ParamByRef.No = none :=
  ⟨claimC8_byref_flags.1 simpleUnit tletC8 regionC8 (by decide),
   claimC8_byref_flags.2 simpleUnit blkDup 0 ParamByRef.No (by decide)⟩

end HPHP

